import Mathlib

/-!
Verification development for the PDF question-answering scripts
(`qna.py`, `uploadpdf.py`): a shallow embedding of the chunking /
page-attribution pipeline and of the retrieval / answer-assembly step,
together with proofs and refutations of the specified properties.

Python strings are modelled as `List Char`; `str.split()` (split on
whitespace runs, dropping empty tokens) is modelled by `pysplit`;
`" ".join(...)` by `List.intercalate [' ']`.
-/

namespace PdfQA

/-- A Python string, modelled as its list of characters. -/
abbrev Text := List Char

/-- Whitespace characters recognised by Python's `str.split()`
(space, tab, newline, carriage return, vertical tab, form feed). -/
def isPySpace (c : Char) : Bool :=
  c = ' ' || c = '\t' || c = '\n' || c = '\r' || c = '\x0b' || c = '\x0c'

/-- Accumulator-based worker for `pysplit`; `acc` holds the characters of
the token currently being read, in reverse order. -/
def pysplitAux : Text → Text → List Text
  | [], acc => if acc.isEmpty then [] else [acc.reverse]
  | c :: rest, acc =>
    if isPySpace c then
      if acc.isEmpty then pysplitAux rest []
      else acc.reverse :: pysplitAux rest []
    else pysplitAux rest (c :: acc)

/-- Python's `text.split()`: splits on runs of whitespace and never
produces empty tokens. -/
def pysplit (t : Text) : List Text := pysplitAux t []

/-- Python's `" ".join(ws)`. -/
def joinWords (ws : List Text) : Text := List.intercalate [' '] ws

/-- The synthetic page header `f"Page {page_num+1}: "` prepended to every
page's text in both scripts. -/
def header (n : Nat) : Text := ("Page " ++ toString (n + 1) ++ ": ").data

/-- The `"\n\n"` separator appended after every page's text. -/
def nl2 : Text := ['\n', '\n']

/-- The concatenation, starting at page number `pnum`, of one
`header ++ page text ++ "\n\n"` block per page: the text produced by one
page-by-page pass of `extract_text_from_pdf`. -/
def pageBlocks : Nat → List Text → Text
  | _, [] => []
  | pnum, t :: rest => header pnum ++ t ++ nl2 ++ pageBlocks (pnum + 1) rest

/-- The first page loop of `qna.py extract_text_from_pdf` (lines 104-110):
`full_text += page_header + text + "\n\n"` for each page, starting from
accumulated text `ft`. -/
def fullTextAux : Text → List Text → Nat → Text
  | ft, [], _ => ft
  | ft, t :: rest, pnum => fullTextAux (ft ++ header pnum ++ t ++ nl2) rest (pnum + 1)

/-- The second page loop of `qna.py extract_text_from_pdf` (lines 118-120):
for each page it first appends `len(full_text)` to `page_starts` and then
appends the page's headered text to `full_text` *again*.  Returns the
`page_starts` entries appended by the loop and the final `full_text`. -/
def pass2Aux : Text → List Text → Nat → List Nat × Text
  | ft, [], _ => ([], ft)
  | ft, t :: rest, pnum =>
    let st := pass2Aux (ft ++ header pnum ++ t ++ nl2) rest (pnum + 1)
    (ft.length :: st.1, st.2)

/-- The page-search loop of `qna.py extract_text_from_pdf` (lines 129-132):
scan consecutive pairs `(page_starts[p], page_starts[p+1])` from `p = k`
upward and return the first `p` with
`page_starts[p] <= chunk_start < page_starts[p+1]`, if any. -/
def findPage : List Nat → Nat → Nat → Option Nat
  | a :: b :: rest, cs, k =>
    if a ≤ cs ∧ cs < b then some k else findPage (b :: rest) cs (k + 1)
  | _, _, _ => none

/-- A chunk produced by `qna.py extract_text_from_pdf`: a text payload and
the tracked `start_page`. -/
structure ChunkRec where
  text : Text
  start_page : Nat
deriving DecidableEq, Repr

/-- The result dictionary of `qna.py extract_text_from_pdf`.  Of the
returned metadata only `total_pages` is modelled (the title / author /
file-name strings play no role in any claim). -/
structure ExtractResult where
  text : Text
  chunks : List ChunkRec
  total_pages : Nat
  page_texts : List Text
deriving DecidableEq, Repr

/-- `range(0, n, chunk_size - chunk_overlap)` as used by both chunk loops.
In Python the subtraction is on `int`: a zero step (`chunk_size =
chunk_overlap`) raises `ValueError` (modelled as `none`, which the
enclosing `try` of the extractor turns into a failed extraction), and a
negative step yields an empty range. -/
def strideIndices (n chunk_size chunk_overlap : Nat) : Option (List Nat) :=
  if chunk_size = chunk_overlap then none
  else if chunk_size < chunk_overlap then some []
  else
    some ((List.range ((n + (chunk_size - chunk_overlap) - 1) / (chunk_size - chunk_overlap))).map
      (fun j => j * (chunk_size - chunk_overlap)))

/-- The chunk-building loop of `qna.py extract_text_from_pdf` (lines
124-137): for each window start `i` it computes
`chunk_start = len(" ".join(words[:i]))`, updates `current_page` when some
`page_starts` interval contains `chunk_start` (and keeps the previous
value otherwise), and emits `" ".join(words[i:i+chunk_size])` with the
current page. -/
def chunkLoop (words : List Text) (page_starts : List Nat) (chunk_size : Nat) :
    List Nat → Nat → List ChunkRec
  | [], _ => []
  | i :: rest, current_page =>
    let chunk_start := (joinWords (words.take i)).length
    let cp := (findPage page_starts chunk_start 0).getD current_page
    { text := joinWords ((words.drop i).take chunk_size), start_page := cp } ::
      chunkLoop words page_starts chunk_size rest cp

/-- `qna.py extract_text_from_pdf` (lines 85-149), taking the extracted
per-page texts as input: build `full_text` page by page, re-append every
page while recording `page_starts` (the second, duplicating pass of lines
118-120), split into words and window them into chunks with page metadata.
`none` models the `except` branch (e.g. the `ValueError` raised by a zero
`range` step when `chunk_size = chunk_overlap`). -/
def extract_text_from_pdf (pages : List Text) (chunk_size chunk_overlap : Nat) :
    Option ExtractResult :=
  let ft1 := fullTextAux [] pages 0
  let p2 := pass2Aux ft1 pages 0
  let page_starts := 0 :: p2.1
  let full_text := p2.2
  let words := pysplit full_text
  match strideIndices words.length chunk_size chunk_overlap with
  | none => none
  | some idxs =>
    some { text := full_text,
           chunks := chunkLoop words page_starts chunk_size idxs 0,
           total_pages := pages.length,
           page_texts := pages }

/-- The chunking loop of `uploadpdf.py extract_text_from_pdf` (lines
92-97), operating on the already-built `full_text`: window the words with
stride `chunk_size - chunk_overlap` and keep only non-empty chunk texts
(`if chunk:`). -/
def create_chunks (full_text : Text) (chunk_size chunk_overlap : Nat) :
    Option (List Text) :=
  let words := pysplit full_text
  (strideIndices words.length chunk_size chunk_overlap).map fun idxs =>
    idxs.filterMap fun i =>
      let chunk := joinWords ((words.drop i).take chunk_size)
      if chunk = [] then none else some chunk

/-! ### Retrieval and answer assembly (`qna.py` lines 242-267 and 286-356) -/

/-- The metadata stored with every chunk vector by
`store_text_in_pinecone` and read back by `generate_answer`.  Embedding
vectors and scores are opaque payloads here. -/
structure ChunkMeta where
  text : Text
  document_id : Text
  custom_name : Text
  start_page : Nat
deriving DecidableEq, Repr

/-- A Pinecone match: stored metadata plus a relevance score (opaque). -/
structure PMatch where
  metadata : ChunkMeta
  score : Int
deriving DecidableEq, Repr

/-- `qna.py query_pinecone` (lines 242-267), with the two external calls
supplied as inputs: `embedResult` is what `generate_embedding` returned
(`none` models a failed call) and `indexResponse` is what the Pinecone
query would return (`none` models a raised exception).  A missing or
empty (`if not query_vector:`) embedding short-circuits to `[]`; an index
exception is caught and also yields `[]`. -/
def query_pinecone (embedResult : Option (List Int)) (indexResponse : Option (List PMatch)) :
    List PMatch :=
  match embedResult with
  | none => []
  | some v => if v = [] then [] else indexResponse.getD []

/-- Outcome of the question-answering block (`qna.py` lines 585-638):
either `generate_answer` was invoked on the retrieved results, or the
fixed "no relevant information found" warning was shown without calling
the generation service. -/
inductive QueryOutcome where
  | answered (ans : Text) : QueryOutcome
  | noInfo : QueryOutcome
deriving DecidableEq, Repr

/-- The caller of `query_pinecone` (`qna.py` lines 585-638): retrieve
results and either pass them to the generation step (`gen` stands for
`generate_answer`, which calls the external LLM) or short-circuit to the
warning when the result list is empty (`if results:`). -/
def answer_flow (embedResult : Option (List Int)) (indexResponse : Option (List PMatch))
    (gen : List PMatch → Text) : QueryOutcome :=
  let results := query_pinecone embedResult indexResponse
  if results = [] then QueryOutcome.noInfo else QueryOutcome.answered (gen results)

/-- One value of the `page_info` dict built by `generate_answer`: the
display name recorded on first encounter of the document and the set of
`start_page` values of its retrieved chunks. -/
structure PageEntry where
  name : Text
  pages : List Nat
deriving DecidableEq, Repr

/-- One iteration of the `page_info` loop of `generate_answer` (lines
299-319) restricted to the page bookkeeping: create the entry on first
sight of a document id, then add the page number to its page set
(`set.add`, modelled as append-if-absent). -/
def insertPage : List (Text × PageEntry) → Text → Text → Nat → List (Text × PageEntry)
  | [], d, nm, p => [(d, { name := nm, pages := [p] })]
  | (d', e) :: rest, d, nm, p =>
    if d' = d then
      (d', { name := e.name, pages := if p ∈ e.pages then e.pages else e.pages ++ [p] }) :: rest
    else (d', e) :: insertPage rest d nm p

/-- The `page_info` accumulation loop of `generate_answer` (lines
299-319): fold over the retrieved chunks in order. -/
def build_page_info (chunks : List ChunkMeta) : List (Text × PageEntry) :=
  chunks.foldl (fun pi c => insertPage pi c.document_id c.custom_name c.start_page) []

/-- `generate_answer`'s final `page_info` (lines 321-323): the page sets
converted to sorted lists. -/
def page_info (chunks : List ChunkMeta) : List (Text × PageEntry) :=
  (build_page_info chunks).map fun de =>
    (de.1, { name := de.2.name, pages := List.insertionSort (· ≤ ·) de.2.pages })

/-- Dictionary lookup on the modelled `page_info`. -/
def alookup (d : Text) : List (Text × PageEntry) → Option PageEntry
  | [] => none
  | (d', e) :: rest => if d' = d then some e else alookup d rest

/-- The effect of one `page_info` iteration on a single document's entry:
create it on first sight, otherwise add the page to its set. -/
def bumpEntry (nm : Text) (p : Nat) : Option PageEntry → PageEntry
  | none => { name := nm, pages := [p] }
  | some e => { name := e.name, pages := if p ∈ e.pages then e.pages else e.pages ++ [p] }

/-- The `sources` set of `generate_answer` (lines 289-290): the set of
display names across all retrieved chunks (a Python `set`, modelled as an
append-if-absent fold; stored metadata always carries `custom_name`, so
the `get` fallback chain reduces to that field). -/
def sources (chunks : List ChunkMeta) : List Text :=
  chunks.foldl (fun acc c => if c.custom_name ∈ acc then acc else acc ++ [c.custom_name]) []

/-! ### Spec-side definitions (for the refinement comparison of claim C1)

These two definitions follow the specification's words, not the code:
the page-boundary table built once, from the same page-by-page pass that
builds the full text, as the number of words preceding each page, and the
`start_page` assignment "largest `p` such that `page_starts[p] ≤ i`" for a
chunk beginning at word index `i`. -/

/-- Word-index page boundaries per the spec: `spec_page_starts[p]` is the
number of words preceding page `p` in the single page-by-page pass that
builds the full text. -/
def spec_page_starts (pages : List Text) : List Nat :=
  (List.range pages.length).map fun p => (pysplit (pageBlocks 0 (pages.take p))).length

/-- The spec's `start_page` assignment for a chunk beginning at word
index `i`: the largest page `p` with `spec_page_starts[p] ≤ i`. -/
def spec_start_page (pages : List Text) (i : Nat) : Nat :=
  (List.range pages.length).foldl
    (fun acc p => if (spec_page_starts pages).getD p 0 ≤ i then p else acc) 0

/-! ### Concrete sample inputs used to instantiate the theorems -/

/-- Default extraction result used with `Option.getD` on concrete samples. -/
def emptyExtract : ExtractResult := { text := [], chunks := [], total_pages := 0, page_texts := [] }

/-- A concrete one-page sample document with text "a b c d e f". -/
def sampleDoc : List Text := ["a b c d e f".data]

/-- The extractor's output on `sampleDoc` with `chunk_size = 3`, `chunk_overlap = 1`. -/
def sampleExtract : ExtractResult := (extract_text_from_pdf sampleDoc 3 1).getD emptyExtract

/-- A concrete one-page sample document with the single word "x". -/
def tinyDoc : List Text := [['x']]

/-- The extractor's output on `tinyDoc` with `chunk_size = 7`, `chunk_overlap = 0`. -/
def tinyExtract : ExtractResult := (extract_text_from_pdf tinyDoc 7 0).getD emptyExtract

/-- A concrete document id used by the attribution sample. -/
def docA : Text := ['A']

/-- Concrete retrieval results: three chunks of document `docA` touching
pages 2, 0 and 2. -/
def sampleMatches : List ChunkMeta :=
  [{ text := "t1".data, document_id := docA, custom_name := "Doc A".data, start_page := 2 },
   { text := "t2".data, document_id := docA, custom_name := "Doc A".data, start_page := 0 },
   { text := "t3".data, document_id := docA, custom_name := "Doc A".data, start_page := 2 }]

/-- The `page_info` entry of `docA` on `sampleMatches`. -/
def sampleEntryA : PageEntry := { name := "Doc A".data, pages := [0, 2] }

/-- A concrete Pinecone match used to instantiate the retrieval theorems. -/
def samplePMatch : PMatch :=
  { metadata := { text := ['t'], document_id := docA, custom_name := "Doc A".data, start_page := 0 },
    score := 1 }

/-! ### Basic facts about `pysplit` and `joinWords` -/

theorem pysplitAux_ne_nil (t : Text) : ∀ (acc : Text), ∀ w ∈ pysplitAux t acc, w ≠ [] := by
  induction t with
  | nil =>
    intro acc w hw
    unfold pysplitAux at hw
    split at hw
    · simp at hw
    · rename_i h
      simp only [List.mem_singleton] at hw
      subst hw
      simp only [List.isEmpty_iff] at h
      simpa using h
  | cons c rest ih =>
    intro acc w hw
    unfold pysplitAux at hw
    split at hw
    · split at hw
      · exact ih [] w hw
      · rename_i h
        rcases List.mem_cons.mp hw with h' | h'
        · subst h'
          simp only [List.isEmpty_iff] at h
          simpa using h
        · exact ih [] w h'
    · exact ih (c :: acc) w hw

theorem pysplit_ne_nil (t : Text) : ∀ w ∈ pysplit t, w ≠ [] :=
  pysplitAux_ne_nil t []

theorem pysplitAux_no_space (t : Text) :
    ∀ (acc : Text), (∀ c ∈ acc, isPySpace c = false) →
      ∀ w ∈ pysplitAux t acc, ∀ c ∈ w, isPySpace c = false := by
  induction t with
  | nil =>
    intro acc hacc w hw
    unfold pysplitAux at hw
    split at hw
    · simp at hw
    · simp only [List.mem_singleton] at hw
      subst hw
      intro c hc
      exact hacc c (List.mem_reverse.mp hc)
  | cons c rest ih =>
    intro acc hacc w hw
    unfold pysplitAux at hw
    by_cases hc : isPySpace c = true
    · rw [if_pos hc] at hw
      split at hw
      · exact ih [] (by simp) w hw
      · rcases List.mem_cons.mp hw with h' | h'
        · subst h'
          intro d hd
          exact hacc d (List.mem_reverse.mp hd)
        · exact ih [] (by simp) w h'
    · rw [if_neg hc] at hw
      refine ih (c :: acc) ?_ w hw
      intro d hd
      rcases List.mem_cons.mp hd with h' | h'
      · subst h'; simpa using hc
      · exact hacc d h'

theorem pysplit_no_space (t : Text) : ∀ w ∈ pysplit t, ∀ c ∈ w, isPySpace c = false :=
  pysplitAux_no_space t [] (by simp)

theorem pysplitAux_token_append (w : Text) :
    ∀ (t acc : Text), (∀ c ∈ w, isPySpace c = false) →
      pysplitAux (w ++ t) acc = pysplitAux t (w.reverse ++ acc) := by
  induction w with
  | nil => intro t acc _; simp
  | cons c w' ih =>
    intro t acc hw
    have hc : isPySpace c = false := hw c (by simp)
    have step : pysplitAux ((c :: w') ++ t) acc = pysplitAux (w' ++ t) (c :: acc) := by
      rw [List.cons_append]
      simp only [pysplitAux]
      rw [hc]
      simp
    rw [step, ih t (c :: acc) (fun d hd => hw d (by simp [hd]))]
    congr 1
    simp

theorem joinWords_nil : joinWords [] = [] := rfl

theorem joinWords_singleton (w : Text) : joinWords [w] = w := by
  simp [joinWords, List.intercalate]

theorem joinWords_cons₂ (w x : Text) (ws : List Text) :
    joinWords (w :: x :: ws) = w ++ ' ' :: joinWords (x :: ws) := by
  simp [joinWords, List.intercalate, List.intersperse_cons_cons]

theorem pysplit_joinWords :
    ∀ (ws : List Text), (∀ w ∈ ws, w ≠ []) →
      (∀ w ∈ ws, ∀ c ∈ w, isPySpace c = false) →
      pysplit (joinWords ws) = ws := by
  intro ws
  induction ws with
  | nil => intro _ _; rfl
  | cons w ws' ih =>
    intro h1 h2
    have hw1 : w ≠ [] := h1 w (by simp)
    have hw2 : ∀ c ∈ w, isPySpace c = false := h2 w (by simp)
    cases ws' with
    | nil =>
      rw [joinWords_singleton]
      show pysplitAux w [] = [w]
      rw [show w = w ++ ([] : Text) by simp] at hw2 ⊢
      rw [pysplitAux_token_append w [] [] (by simpa using hw2)]
      unfold pysplitAux
      rw [if_neg (by simpa [List.isEmpty_iff] using hw1)]
      simp
    | cons x ws'' =>
      rw [joinWords_cons₂]
      show pysplitAux (w ++ ' ' :: joinWords (x :: ws'')) [] = _
      rw [pysplitAux_token_append w (' ' :: joinWords (x :: ws'')) [] hw2]
      unfold pysplitAux
      rw [if_pos (by simp [isPySpace])]
      rw [if_neg (by simpa [List.isEmpty_iff] using hw1)]
      have := ih (fun v hv => h1 v (by simp [hv])) (fun v hv => h2 v (by simp [hv]))
      simp only [List.append_nil, List.reverse_reverse]
      exact congrArg (w :: ·) this

theorem length_joinWords :
    ∀ (ws : List Text), (joinWords ws).length = (ws.map List.length).sum + ws.length - 1 := by
  intro ws
  induction ws with
  | nil => simp [joinWords_nil]
  | cons w ws' ih =>
    cases ws' with
    | nil => simp [joinWords_singleton]
    | cons x ws'' =>
      rw [joinWords_cons₂]
      simp only [List.length_append, List.length_cons, ih]
      simp only [List.map_cons, List.sum_cons, List.length_cons]
      omega

theorem joinWords_take_mono (ws : List Text) {i j : Nat} (h : i ≤ j) :
    (joinWords (ws.take i)).length ≤ (joinWords (ws.take j)).length := by
  rw [length_joinWords, length_joinWords]
  have hsplit : ws.take j = ws.take i ++ (ws.drop i).take (j - i) := by
    rw [show j = i + (j - i) by omega, List.take_add]
    simp
  have hsum : ((ws.take i).map List.length).sum + (ws.take i).length ≤
      ((ws.take j).map List.length).sum + (ws.take j).length := by
    rw [hsplit]
    simp only [List.map_append, List.sum_append, List.length_append]
    omega
  omega

/-! ### Facts about `findPage` -/

theorem findPage_ge :
    ∀ (l : List Nat) (cs k j : Nat), findPage l cs k = some j → k ≤ j := by
  intro l
  induction l with
  | nil => intro cs k j h; simp [findPage] at h
  | cons a rest ih =>
    intro cs k j h
    cases rest with
    | nil => simp [findPage] at h
    | cons b rest' =>
      unfold findPage at h
      split at h
      · simp only [Option.some.injEq] at h
        omega
      · exact Nat.le_of_succ_le (ih cs (k + 1) j h)

theorem findPage_lt :
    ∀ (l : List Nat) (cs k j : Nat), findPage l cs k = some j → j + 1 < k + l.length := by
  intro l
  induction l with
  | nil => intro cs k j h; simp [findPage] at h
  | cons a rest ih =>
    intro cs k j h
    cases rest with
    | nil => simp [findPage] at h
    | cons b rest' =>
      unfold findPage at h
      split at h
      · simp only [Option.some.injEq] at h
        simp only [List.length_cons]
        omega
      · have := ih cs (k + 1) j h
        simp only [List.length_cons] at this ⊢
        omega

theorem findPage_none_of_lt_head :
    ∀ (rest : List Nat) (b cs k : Nat), List.Chain' (· ≤ ·) (b :: rest) → cs < b →
      findPage (b :: rest) cs k = none := by
  intro rest
  induction rest with
  | nil => intro b cs k _ _; rfl
  | cons c rest' ih =>
    intro b cs k hch hlt
    have hbc : b ≤ c := (List.chain'_cons.mp hch).1
    unfold findPage
    rw [if_neg (by omega)]
    exact ih c cs (k + 1) (List.chain'_cons.mp hch).2 (by omega)

theorem findPage_mono :
    ∀ (l : List Nat) (cs cs' k j j' : Nat), List.Chain' (· ≤ ·) l → cs ≤ cs' →
      findPage l cs k = some j → findPage l cs' k = some j' → j ≤ j' := by
  intro l
  induction l with
  | nil => intro cs cs' k j j' _ _ h _; simp [findPage] at h
  | cons a rest ih =>
    intro cs cs' k j j' hch hle h h'
    cases rest with
    | nil => simp [findPage] at h
    | cons b rest' =>
      unfold findPage at h h'
      split at h
      · simp only [Option.some.injEq] at h
        subst h
        split at h'
        · simp only [Option.some.injEq] at h'
          omega
        · have := findPage_ge (b :: rest') cs' (k + 1) j' h'
          omega
      · rename_i hcond
        have hcsb : b ≤ cs := by
          by_contra hnb
          have hnone := findPage_none_of_lt_head rest' b cs (k + 1)
            (List.chain'_cons.mp hch).2 (by omega)
          rw [hnone] at h
          cases h
        split at h'
        · rename_i hcond'
          omega
        · exact ih cs cs' (k + 1) j j' (List.chain'_cons.mp hch).2 hle h h'

theorem findPage_none_mono :
    ∀ (l : List Nat) (a cs cs' k : Nat), List.Chain' (· ≤ ·) (a :: l) → a ≤ cs → cs ≤ cs' →
      findPage (a :: l) cs k = none → findPage (a :: l) cs' k = none := by
  intro l
  induction l with
  | nil => intro a cs cs' k _ _ _ _; rfl
  | cons b rest ih =>
    intro a cs cs' k hch hac hle h
    unfold findPage at h ⊢
    split at h
    · cases h
    · rename_i hcond
      have hbcs : b ≤ cs := by
        rcases Classical.em (cs < b) with hlt | hge
        · exact absurd ⟨hac, hlt⟩ hcond
        · omega
      rw [if_neg (by omega)]
      exact ih b cs cs' (k + 1) (List.chain'_cons.mp hch).2 hbcs hle h

/-! ### Facts about the two page passes -/

theorem fullTextAux_eq :
    ∀ (pages : List Text) (ft : Text) (n : Nat),
      fullTextAux ft pages n = ft ++ pageBlocks n pages := by
  intro pages
  induction pages with
  | nil => intro ft n; simp [fullTextAux, pageBlocks]
  | cons t rest ih =>
    intro ft n
    show fullTextAux (ft ++ header n ++ t ++ nl2) rest (n + 1) = _
    rw [ih]
    simp [pageBlocks, List.append_assoc]

theorem pass2Aux_snd :
    ∀ (pages : List Text) (ft : Text) (n : Nat),
      (pass2Aux ft pages n).2 = ft ++ pageBlocks n pages := by
  intro pages
  induction pages with
  | nil => intro ft n; simp [pass2Aux, pageBlocks]
  | cons t rest ih =>
    intro ft n
    show (pass2Aux (ft ++ header n ++ t ++ nl2) rest (n + 1)).2 = _
    rw [ih]
    simp [pageBlocks, List.append_assoc]

theorem pass2Aux_fst_length :
    ∀ (pages : List Text) (ft : Text) (n : Nat),
      (pass2Aux ft pages n).1.length = pages.length := by
  intro pages
  induction pages with
  | nil => intro ft n; rfl
  | cons t rest ih =>
    intro ft n
    show (ft.length :: (pass2Aux (ft ++ header n ++ t ++ nl2) rest (n + 1)).1).length = _
    simp [ih]

theorem pass2Aux_fst_bounds :
    ∀ (pages : List Text) (ft : Text) (n : Nat),
      List.Chain' (· ≤ ·) (pass2Aux ft pages n).1 ∧
        ∀ x ∈ (pass2Aux ft pages n).1, ft.length ≤ x := by
  intro pages
  induction pages with
  | nil => intro ft n; simp [pass2Aux]
  | cons t rest ih =>
    intro ft n
    obtain ⟨hch, hb⟩ := ih (ft ++ header n ++ t ++ nl2) (n + 1)
    have hgrow : ft.length ≤ (ft ++ header n ++ t ++ nl2).length := by
      simp [List.length_append]
    constructor
    · show List.Chain' (· ≤ ·) (ft.length :: (pass2Aux (ft ++ header n ++ t ++ nl2) rest (n + 1)).1)
      refine List.chain'_cons'.mpr ⟨?_, hch⟩
      intro y hy
      have : y ∈ (pass2Aux (ft ++ header n ++ t ++ nl2) rest (n + 1)).1 :=
        List.mem_of_mem_head? hy
      exact le_trans hgrow (hb y this)
    · intro x hx
      show ft.length ≤ x
      rcases List.mem_cons.mp hx with h' | h'
      · omega
      · exact le_trans hgrow (hb x h')

theorem starts_chain (pages : List Text) (ft : Text) (n : Nat) :
    List.Chain' (· ≤ ·) (0 :: (pass2Aux ft pages n).1) := by
  refine List.chain'_cons'.mpr ⟨?_, (pass2Aux_fst_bounds pages ft n).1⟩
  intro y _
  exact Nat.zero_le y

/-! ### Arithmetic about the window indices -/

theorem lt_ceil_iff {d : Nat} (n j : Nat) (hd : 0 < d) :
    j < (n + d - 1) / d ↔ j * d < n := by
  rw [Nat.lt_iff_add_one_le, Nat.le_div_iff_mul_le hd, Nat.succ_mul]
  omega

theorem ceil_eq_one {d n : Nat} (h0 : 0 < n) (hnd : n ≤ d) : (n + d - 1) / d = 1 := by
  apply Nat.div_eq_of_lt_le <;> omega

/-! ### Facts about `chunkLoop` -/

theorem chunkLoop_nil (words : List Text) (ps : List Nat) (s cur : Nat) :
    chunkLoop words ps s [] cur = [] := rfl

theorem chunkLoop_cons (words : List Text) (ps : List Nat) (s i cur : Nat) (rest : List Nat) :
    chunkLoop words ps s (i :: rest) cur =
      { text := joinWords ((words.drop i).take s),
        start_page := (findPage ps (joinWords (words.take i)).length 0).getD cur } ::
        chunkLoop words ps s rest
          ((findPage ps (joinWords (words.take i)).length 0).getD cur) := rfl

theorem chunkLoop_map_text (words : List Text) (ps : List Nat) (s : Nat) :
    ∀ (idxs : List Nat) (cur : Nat),
      (chunkLoop words ps s idxs cur).map ChunkRec.text
        = idxs.map fun i => joinWords ((words.drop i).take s) := by
  intro idxs
  induction idxs with
  | nil => intro cur; rfl
  | cons i rest ih =>
    intro cur
    rw [chunkLoop_cons, List.map_cons, List.map_cons, ih]

theorem chunkLoop_length (words : List Text) (ps : List Nat) (s : Nat) :
    ∀ (idxs : List Nat) (cur : Nat), (chunkLoop words ps s idxs cur).length = idxs.length := by
  intro idxs
  induction idxs with
  | nil => intro cur; rfl
  | cons i rest ih =>
    intro cur
    rw [chunkLoop_cons, List.length_cons, List.length_cons, ih]

theorem chunkLoop_start_page_lt (words : List Text) (ps : List Nat) (s P : Nat)
    (hlen : ps.length = P + 1) :
    ∀ (idxs : List Nat) (cur : Nat), cur < P →
      ∀ c ∈ chunkLoop words ps s idxs cur, c.start_page < P := by
  intro idxs
  induction idxs with
  | nil => intro cur _ c hc; simp [chunkLoop_nil] at hc
  | cons i rest ih =>
    intro cur hcur c hc
    rw [chunkLoop_cons] at hc
    have hcp : (findPage ps (joinWords (words.take i)).length 0).getD cur < P := by
      cases hfp : findPage ps (joinWords (words.take i)).length 0 with
      | none => simpa using hcur
      | some j =>
        have := findPage_lt ps (joinWords (words.take i)).length 0 j hfp
        simp only [Option.getD_some]
        omega
    rcases List.mem_cons.mp hc with h' | h'
    · subst h'
      exact hcp
    · exact ih _ hcp c h'

theorem chunkLoop_chain (words : List Text) (tail : List Nat) (s : Nat)
    (hch : List.Chain' (· ≤ ·) (0 :: tail)) :
    ∀ (idxs : List Nat) (cur : Nat), List.Chain' (· ≤ ·) idxs →
      List.Chain' (· ≤ ·) ((chunkLoop words (0 :: tail) s idxs cur).map ChunkRec.start_page) := by
  intro idxs
  induction idxs with
  | nil => intro cur _; simp [chunkLoop_nil]
  | cons i rest ih =>
    intro cur hidx
    rw [chunkLoop_cons, List.map_cons]
    refine List.chain'_cons'.mpr ⟨?_, ?_⟩
    · intro y hy
      cases rest with
      | nil => simp [chunkLoop_nil] at hy
      | cons i' rest' =>
        rw [chunkLoop_cons, List.map_cons] at hy
        simp only [List.head?_cons, Option.mem_def, Option.some.injEq] at hy
        subst hy
        have h12 : i ≤ i' := (List.chain'_cons.mp hidx).1
        have hcs : (joinWords (words.take i)).length ≤ (joinWords (words.take i')).length :=
          joinWords_take_mono words h12
        cases h2 : findPage (0 :: tail) (joinWords (words.take i')).length 0 with
        | none => simp [h2]
        | some j' =>
          cases h1 : findPage (0 :: tail) (joinWords (words.take i)).length 0 with
          | none =>
            exfalso
            have := findPage_none_mono tail 0 _ _ 0 hch (Nat.zero_le _) hcs h1
            rw [this] at h2
            cases h2
          | some j =>
            simp only [Option.getD_some]
            exact findPage_mono (0 :: tail) _ _ 0 j j' hch hcs h1 h2
    · exact ih _ (List.Chain'.tail hidx)

/-! ### Unfolding the extractor and the uploadpdf chunker -/

theorem strideIndices_of_lt {s o : Nat} (n : Nat) (ho : o < s) :
    strideIndices n s o =
      some ((List.range ((n + (s - o) - 1) / (s - o))).map fun j => j * (s - o)) := by
  unfold strideIndices
  rw [if_neg (by omega), if_neg (by omega)]

theorem extract_spec (pages : List Text) (s o : Nat) (r : ExtractResult)
    (hr : extract_text_from_pdf pages s o = some r) :
    ∃ idxs,
      strideIndices (pysplit (pass2Aux (fullTextAux [] pages 0) pages 0).2).length s o
        = some idxs ∧
      r = { text := (pass2Aux (fullTextAux [] pages 0) pages 0).2,
            chunks := chunkLoop (pysplit (pass2Aux (fullTextAux [] pages 0) pages 0).2)
              (0 :: (pass2Aux (fullTextAux [] pages 0) pages 0).1) s idxs 0,
            total_pages := pages.length,
            page_texts := pages } := by
  simp only [extract_text_from_pdf] at hr
  split at hr
  · cases hr
  · rename_i idxs heq
    simp only [Option.some.injEq] at hr
    exact ⟨idxs, heq, hr.symm⟩

theorem length_filterMap_of_isSome {α β : Type} (f : α → Option β) :
    ∀ (l : List α), (∀ a ∈ l, (f a).isSome = true) → (l.filterMap f).length = l.length := by
  intro l
  induction l with
  | nil => intro _; rfl
  | cons a rest ih =>
    intro h
    obtain ⟨b, hb⟩ := Option.isSome_iff_exists.mp (h a (by simp))
    rw [List.filterMap_cons, hb]
    simp [ih fun x hx => h x (by simp [hx])]

/-! ### Facts about the `page_info` / `sources` accumulation -/

theorem alookup_insertPage_ne :
    ∀ (pi : List (Text × PageEntry)) (d d' nm : Text) (p : Nat), d ≠ d' →
      alookup d' (insertPage pi d nm p) = alookup d' pi := by
  intro pi
  induction pi with
  | nil =>
    intro d d' nm p hne
    simp [insertPage, alookup, hne]
  | cons de rest ih =>
    intro d d' nm p hne
    obtain ⟨d0, e0⟩ := de
    unfold insertPage
    by_cases h0 : d0 = d
    · rw [if_pos h0]
      subst h0
      unfold alookup
      rw [if_neg hne, if_neg hne]
    · rw [if_neg h0]
      unfold alookup
      by_cases h1 : d0 = d'
      · rw [if_pos h1, if_pos h1]
      · rw [if_neg h1, if_neg h1]
        exact ih d d' nm p hne

theorem alookup_insertPage_self :
    ∀ (pi : List (Text × PageEntry)) (d nm : Text) (p : Nat),
      alookup d (insertPage pi d nm p) = some (bumpEntry nm p (alookup d pi)) := by
  intro pi
  induction pi with
  | nil =>
    intro d nm p
    simp [insertPage, alookup, bumpEntry]
  | cons de rest ih =>
    intro d nm p
    obtain ⟨d0, e0⟩ := de
    unfold insertPage
    by_cases h0 : d0 = d
    · rw [if_pos h0]
      subst h0
      unfold alookup
      rw [if_pos rfl, if_pos rfl]
      rfl
    · rw [if_neg h0]
      unfold alookup
      rw [if_neg h0, if_neg h0]
      exact ih d nm p

theorem build_lookup (d : Text) :
    ∀ (cs : List ChunkMeta) (pi : List (Text × PageEntry)),
      alookup d (cs.foldl (fun pi c => insertPage pi c.document_id c.custom_name c.start_page) pi)
        = cs.foldl
            (fun oe c =>
              if c.document_id = d then some (bumpEntry c.custom_name c.start_page oe) else oe)
            (alookup d pi) := by
  intro cs
  induction cs with
  | nil => intro pi; rfl
  | cons c rest ih =>
    intro pi
    simp only [List.foldl_cons]
    rw [ih]
    congr 1
    by_cases hd : c.document_id = d
    · rw [if_pos hd, ← hd, alookup_insertPage_self]
    · rw [if_neg hd, alookup_insertPage_ne pi c.document_id d c.custom_name c.start_page hd]

theorem bumpEntry_pages_mem (nm : Text) (p q : Nat) (oe : Option PageEntry) :
    q ∈ (bumpEntry nm p oe).pages ↔ (∃ e0, oe = some e0 ∧ q ∈ e0.pages) ∨ q = p := by
  cases oe with
  | none => simp [bumpEntry]
  | some e =>
    simp only [bumpEntry]
    by_cases hp : p ∈ e.pages
    · rw [if_pos hp]
      constructor
      · intro h; exact Or.inl ⟨e, rfl, h⟩
      · rintro (⟨e0, he0, h⟩ | rfl)
        · cases he0; exact h
        · exact hp
    · rw [if_neg hp]
      simp only [List.mem_append, List.mem_singleton]
      constructor
      · rintro (h | h)
        · exact Or.inl ⟨e, rfl, h⟩
        · exact Or.inr h
      · rintro (⟨e0, he0, h⟩ | rfl)
        · cases he0; exact Or.inl h
        · exact Or.inr rfl

theorem entryFold_pages_mem (d : Text) :
    ∀ (cs : List ChunkMeta) (oe : Option PageEntry) (e : PageEntry) (q : Nat),
      cs.foldl
          (fun oe c =>
            if c.document_id = d then some (bumpEntry c.custom_name c.start_page oe) else oe)
          oe = some e →
      (q ∈ e.pages ↔
        (∃ e0, oe = some e0 ∧ q ∈ e0.pages) ∨ ∃ c ∈ cs, c.document_id = d ∧ c.start_page = q) := by
  intro cs
  induction cs with
  | nil =>
    intro oe e q h
    simp only [List.foldl_nil] at h
    subst h
    simp
  | cons c rest ih =>
    intro oe e q h
    simp only [List.foldl_cons] at h
    by_cases hd : c.document_id = d
    · rw [if_pos hd] at h
      rw [ih _ e q h]
      simp only [Option.some.injEq, List.mem_cons]
      constructor
      · rintro (⟨e0, he0, hq⟩ | ⟨c', hc', hd', hq'⟩)
        · rcases (bumpEntry_pages_mem _ _ q oe).mp (he0 ▸ hq) with h' | rfl
          · exact Or.inl h'
          · exact Or.inr ⟨c, Or.inl rfl, hd, rfl⟩
        · exact Or.inr ⟨c', Or.inr hc', hd', hq'⟩
      · rintro (⟨e0, he0, hq⟩ | ⟨c', hc' | hc', hd', hq'⟩)
        · exact Or.inl ⟨bumpEntry c.custom_name c.start_page oe, rfl,
            (bumpEntry_pages_mem _ _ q oe).mpr (Or.inl ⟨e0, he0, hq⟩)⟩
        · subst hc'
          exact Or.inl ⟨bumpEntry c'.custom_name c'.start_page oe, rfl,
            (bumpEntry_pages_mem _ _ q oe).mpr (Or.inr hq'.symm)⟩
        · exact Or.inr ⟨c', hc', hd', hq'⟩
    · rw [if_neg hd] at h
      rw [ih _ e q h]
      simp only [List.mem_cons]
      constructor
      · rintro (h' | ⟨c', hc', hd', hq'⟩)
        · exact Or.inl h'
        · exact Or.inr ⟨c', Or.inr hc', hd', hq'⟩
      · rintro (h' | ⟨c', hc' | hc', hd', hq'⟩)
        · exact Or.inl h'
        · subst hc'; exact absurd hd' hd
        · exact Or.inr ⟨c', hc', hd', hq'⟩

theorem entryFold_eq_none_iff (d : Text) :
    ∀ (cs : List ChunkMeta) (oe : Option PageEntry),
      cs.foldl
          (fun oe c =>
            if c.document_id = d then some (bumpEntry c.custom_name c.start_page oe) else oe)
          oe = none ↔ oe = none ∧ ∀ c ∈ cs, c.document_id ≠ d := by
  intro cs
  induction cs with
  | nil => intro oe; simp
  | cons c rest ih =>
    intro oe
    simp only [List.foldl_cons]
    by_cases hd : c.document_id = d
    · rw [if_pos hd, ih]
      simp [hd]
    · rw [if_neg hd, ih]
      constructor
      · rintro ⟨h1, h2⟩
        refine ⟨h1, ?_⟩
        intro c' hc'
        rcases List.mem_cons.mp hc' with rfl | hc'
        · exact hd
        · exact h2 c' hc'
      · rintro ⟨h1, h2⟩
        exact ⟨h1, fun c' hc' => h2 c' (by simp [hc'])⟩

theorem bumpEntry_pages_nodup (nm : Text) (p : Nat) (oe : Option PageEntry)
    (h : ∀ e0, oe = some e0 → e0.pages.Nodup) : (bumpEntry nm p oe).pages.Nodup := by
  cases oe with
  | none => simp [bumpEntry]
  | some e =>
    have he := h e rfl
    simp only [bumpEntry]
    by_cases hp : p ∈ e.pages
    · rw [if_pos hp]; exact he
    · rw [if_neg hp]
      rw [List.nodup_append]
      refine ⟨he, List.nodup_singleton p, ?_⟩
      intro a ha ha'
      simp only [List.mem_singleton] at ha'
      subst ha'
      exact hp ha

theorem entryFold_pages_nodup (d : Text) :
    ∀ (cs : List ChunkMeta) (oe : Option PageEntry) (e : PageEntry),
      (∀ e0, oe = some e0 → e0.pages.Nodup) →
      cs.foldl
          (fun oe c =>
            if c.document_id = d then some (bumpEntry c.custom_name c.start_page oe) else oe)
          oe = some e → e.pages.Nodup := by
  intro cs
  induction cs with
  | nil =>
    intro oe e hoe h
    simp only [List.foldl_nil] at h
    exact hoe e h
  | cons c rest ih =>
    intro oe e hoe h
    simp only [List.foldl_cons] at h
    by_cases hd : c.document_id = d
    · rw [if_pos hd] at h
      refine ih _ e ?_ h
      intro e0 he0
      cases he0
      exact bumpEntry_pages_nodup _ _ oe hoe
    · rw [if_neg hd] at h
      exact ih _ e hoe h

theorem sourcesAux_nodup :
    ∀ (cs : List ChunkMeta) (acc : List Text), acc.Nodup →
      (cs.foldl
        (fun acc c => if c.custom_name ∈ acc then acc else acc ++ [c.custom_name]) acc).Nodup := by
  intro cs
  induction cs with
  | nil => intro acc h; exact h
  | cons c rest ih =>
    intro acc h
    simp only [List.foldl_cons]
    by_cases hm : c.custom_name ∈ acc
    · rw [if_pos hm]; exact ih acc h
    · rw [if_neg hm]
      refine ih _ ?_
      rw [List.nodup_append]
      refine ⟨h, List.nodup_singleton _, ?_⟩
      intro a ha ha'
      simp only [List.mem_singleton] at ha'
      subst ha'
      exact hm ha

theorem sourcesAux_mem :
    ∀ (cs : List ChunkMeta) (acc : List Text) (nm : Text),
      nm ∈ cs.foldl
          (fun acc c => if c.custom_name ∈ acc then acc else acc ++ [c.custom_name]) acc ↔
        nm ∈ acc ∨ ∃ c ∈ cs, c.custom_name = nm := by
  intro cs
  induction cs with
  | nil => intro acc nm; simp
  | cons c rest ih =>
    intro acc nm
    simp only [List.foldl_cons]
    by_cases hm : c.custom_name ∈ acc
    · rw [if_pos hm, ih]
      simp only [List.mem_cons]
      constructor
      · rintro (h | ⟨c', hc', hnm⟩)
        · exact Or.inl h
        · exact Or.inr ⟨c', Or.inr hc', hnm⟩
      · rintro (h | ⟨c', rfl | hc', hnm⟩)
        · exact Or.inl h
        · exact Or.inl (hnm ▸ hm)
        · exact Or.inr ⟨c', hc', hnm⟩
    · rw [if_neg hm, ih]
      simp only [List.mem_append, List.mem_singleton, List.mem_cons]
      constructor
      · rintro ((h | h | h) | ⟨c', hc', hnm⟩)
        · exact Or.inl h
        · exact Or.inr ⟨c, Or.inl rfl, h.symm⟩
        · cases h
        · exact Or.inr ⟨c', Or.inr hc', hnm⟩
      · rintro (h | ⟨c', rfl | hc', hnm⟩)
        · exact Or.inl (Or.inl h)
        · exact Or.inl (Or.inr (Or.inl hnm.symm))
        · exact Or.inr ⟨c', hc', hnm⟩

theorem alookup_page_info (d : Text) (chunks : List ChunkMeta) :
    alookup d (page_info chunks) =
      (alookup d (build_page_info chunks)).map fun e =>
        { name := e.name, pages := List.insertionSort (· ≤ ·) e.pages } := by
  unfold page_info
  generalize build_page_info chunks = l
  induction l with
  | nil => rfl
  | cons de rest ih =>
    obtain ⟨d0, e0⟩ := de
    simp only [List.map_cons]
    unfold alookup
    by_cases h0 : d0 = d
    · rw [if_pos h0, if_pos h0]
      rfl
    · rw [if_neg h0, if_neg h0]
      exact ih

theorem joinWords_cons_length_pos (w : Text) (l : List Text) (hw : w ≠ []) :
    0 < (joinWords (w :: l)).length := by
  rw [length_joinWords]
  have : 0 < w.length := List.length_pos.mpr hw
  simp only [List.map_cons, List.sum_cons, List.length_cons]
  omega

theorem window_ne_nil (t : Text) (i s : Nat) (hi : i < (pysplit t).length) (hs : 0 < s) :
    joinWords (((pysplit t).drop i).take s) ≠ [] := by
  have hdrop : (pysplit t).drop i ≠ [] := by
    intro h
    have := List.drop_eq_nil_iff.mp h
    omega
  obtain ⟨w, rest, hw⟩ := List.exists_cons_of_ne_nil hdrop
  have hw_mem : w ∈ pysplit t := by
    have : w ∈ (pysplit t).drop i := by rw [hw]; simp
    exact List.mem_of_mem_drop this
  have hw_ne : w ≠ [] := pysplit_ne_nil t w hw_mem
  cases s with
  | zero => omega
  | succ s' =>
    rw [hw, List.take_succ_cons]
    intro hcontra
    have := joinWords_cons_length_pos w (rest.take s') hw_ne
    rw [hcontra] at this
    simp at this

theorem pageBlocks_length_pos (t : Text) (rest : List Text) (n : Nat) :
    0 < (pageBlocks n (t :: rest)).length := by
  show 0 < (header n ++ t ++ nl2 ++ pageBlocks (n + 1) rest).length
  simp only [List.length_append]
  have : nl2.length = 2 := rfl
  omega

theorem strideIndices_chain (n s o : Nat) (idxs : List Nat)
    (h : strideIndices n s o = some idxs) : List.Chain' (· ≤ ·) idxs := by
  unfold strideIndices at h
  split at h
  · cases h
  · split at h
    · simp only [Option.some.injEq] at h
      subst h
      exact List.chain'_nil
    · simp only [Option.some.injEq] at h
      subst h
      rw [List.chain'_map]
      refine List.Pairwise.chain' ?_
      refine (List.pairwise_lt_range _).imp ?_
      intro a b hab
      exact Nat.mul_le_mul_right _ (Nat.le_of_lt hab)

theorem strideIndices_mem_lt (n s o i : Nat) (ho : o < s) (idxs : List Nat)
    (h : strideIndices n s o = some idxs) (hi : i ∈ idxs) : i < n := by
  rw [strideIndices_of_lt n ho] at h
  simp only [Option.some.injEq] at h
  subst h
  obtain ⟨j, hj, rfl⟩ := List.mem_map.mp hi
  have hjm := List.mem_range.mp hj
  have := (lt_ceil_iff n j (by omega)).mp hjm
  omega

theorem extract_nil (s o : Nat) (ho : o < s) :
    extract_text_from_pdf [] s o =
      some { text := [], chunks := [], total_pages := 0, page_texts := [] } := by
  have h0 : strideIndices (pysplit (pass2Aux (fullTextAux [] [] 0) [] 0).2).length s o
      = some [] := by
    rw [strideIndices_of_lt _ ho]
    have hlen : (pysplit (pass2Aux (fullTextAux [] [] 0) [] 0).2).length = 0 := rfl
    rw [hlen, Nat.div_eq_of_lt (by omega)]
    rfl
  simp only [extract_text_from_pdf, h0]
  rfl

/-! ### Claim theorems -/

/-- Claim C1 (status: code bug in `qna.py`).  The claim states that a
chunk beginning at word index `i` gets `start_page` equal to the largest
`p` with `page_starts[p] ≤ i`, for a boundary table built once from the
same pass that builds the full text.  The code instead re-appends every
page in a second pass and compares character offsets of a re-joined
prefix against boundaries of the duplicated text.  On the two-page
document with page texts "a" and "b", `chunk_size = 2`, `chunk_overlap =
1`, the chunk at sequence position 5 begins at word index 5 (the word
"b", which lies in page index 1: the spec-side assignment gives 1), yet
the code assigns `start_page = 0`. -/
theorem c1_page_attribution_bug :
    (extract_text_from_pdf [['a'], ['b']] 2 1).map (fun r => r.chunks.map ChunkRec.start_page)
        = some [0, 0, 0, 0, 0, 0, 0, 1, 1, 1, 1, 1]
    ∧ spec_start_page [['a'], ['b']] 5 = 1
    ∧ [0, 0, 0, 0, 0, 0, 0, 1, 1, 1, 1, 1].getD 5 99 = 0 := by
  exact ⟨by decide, by decide, rfl⟩

/-- Claim C2, counterexample.  The claim's chunk-count formula
`ceil(max(n - o, 1) / (s - o))` is wrong for the code: on the 3-word text
"a b c" with `chunk_size = 2`, `chunk_overlap = 1` the loop produces 3
chunks while the formula gives `ceil(max(2, 1) / 1) = 2`. -/
theorem c2_chunk_count_cex :
    (create_chunks ("a b c".data) 2 1).map List.length
      ≠ some ((max (3 - 1) 1 + (2 - 1) - 1) / (2 - 1)) := by
  decide

/-- Claim C2, amended.  For `0 ≤ o < s`, chunking a text of `n` words
produces exactly `ceil(n / (s - o))` chunks (which is 0 when `n = 0`):
the loop emits one chunk per window start in `range(0, n, s - o)` and no
chunk is empty, so none is dropped. -/
theorem c2_chunk_count (t : Text) (s o : Nat) (ho : o < s) :
    (create_chunks t s o).map List.length
      = some (((pysplit t).length + (s - o) - 1) / (s - o)) := by
  simp only [create_chunks, strideIndices_of_lt _ ho, Option.map_some']
  congr 1
  rw [length_filterMap_of_isSome]
  · rw [List.length_map, List.length_range]
  · intro i hi
    have hin : i < (pysplit t).length := by
      refine strideIndices_mem_lt _ s o i ho _ (strideIndices_of_lt _ ho) hi
    have hne := window_ne_nil t i s hin (by omega)
    rw [if_neg hne]
    rfl

/-- Claim C2, amended: witness at the concrete text "a b c" with
`chunk_size = 3`, `chunk_overlap = 1`. -/
theorem c2_chunk_count_witness :
    (create_chunks ("a b c".data) 3 1).map List.length
      = some (((pysplit ("a b c".data)).length + (3 - 1) - 1) / (3 - 1)) :=
  c2_chunk_count ("a b c".data) 3 1 (by decide)

/-- Claim C4, counterexample.  The claim states that every configuration
with `chunk_overlap ≥ chunk_size` is rejected with an
`InvalidConfiguration` outcome before any text is processed.  There is no
such validation: with `chunk_overlap = 3 > chunk_size = 2` the extraction
of a one-page document succeeds (returns a result rather than an error)
and simply yields an empty chunk list. -/
theorem c4_config_rejection_cex :
    extract_text_from_pdf [['x']] 2 3 ≠ none := by
  decide

/-- Claim C4, amended.  No configuration validation exists.  When
`chunk_overlap = chunk_size` the extraction fails with the generic
extraction-error outcome (`None`, from the `ValueError` raised by the
zero `range` step inside the `try`), only after the text has been
extracted; when `chunk_overlap > chunk_size` the extraction succeeds with
an empty chunk list.  In both cases no embedding call is made for the
document (`store_text_in_pinecone` is only reached on success, and with
zero chunks it issues no upsert). -/
theorem c4_overlap_ge_size_behavior (pages : List Text) (s o : Nat) :
    (o = s → extract_text_from_pdf pages s o = none) ∧
    (s < o → (extract_text_from_pdf pages s o).map ExtractResult.chunks = some []) := by
  constructor
  · intro h
    subst h
    simp [extract_text_from_pdf, strideIndices]
  · intro h
    have hs : strideIndices
        (pysplit (pass2Aux (fullTextAux [] pages 0) pages 0).2).length s o = some [] := by
      unfold strideIndices
      rw [if_neg (by omega), if_pos h]
    simp only [extract_text_from_pdf, hs]
    rw [chunkLoop_nil]
    rfl

/-- Claim C4, amended: witness at a concrete one-page document, once with
`chunk_overlap = chunk_size = 2` and once with `chunk_overlap = 3 >
chunk_size = 2`. -/
theorem c4_overlap_ge_size_witness :
    extract_text_from_pdf [['x']] 2 2 = none ∧
      (extract_text_from_pdf [['x']] 2 3).map ExtractResult.chunks = some [] :=
  ⟨(c4_overlap_ge_size_behavior [['x']] 2 2).1 rfl,
   (c4_overlap_ge_size_behavior [['x']] 2 3).2 (by decide)⟩

/-- Claim C5 (status: confirmed).  When the question-embedding call fails
(`generate_embedding` returns `None`) or returns nothing (an empty
vector), `query_pinecone` returns the empty result list, and the caller
short-circuits to the fixed "no relevant information" outcome without
invoking the generation service. -/
theorem c5_embedding_failure_short_circuits (embedResult : Option (List Int))
    (indexResponse : Option (List PMatch)) (gen : List PMatch → Text)
    (h : embedResult = none ∨ embedResult = some []) :
    query_pinecone embedResult indexResponse = [] ∧
      answer_flow embedResult indexResponse gen = QueryOutcome.noInfo := by
  rcases h with rfl | rfl
  · exact ⟨rfl, rfl⟩
  · constructor
    · simp [query_pinecone]
    · simp [answer_flow, query_pinecone]

/-- Claim C5: witness with a failed embedding against a non-empty index
response. -/
theorem c5_embedding_failure_witness :
    query_pinecone none (some [samplePMatch]) = [] ∧
      answer_flow none (some [samplePMatch]) (fun _ => []) = QueryOutcome.noInfo :=
  c5_embedding_failure_short_circuits none (some [samplePMatch]) (fun _ => []) (Or.inl rfl)

/-- Claim C3 (status: confirmed).  The text that is actually windowed
into chunks by `qna.py extract_text_from_pdf` is the page-by-page pass
(`header ++ page text ++ "\n\n"` per page) concatenated with itself: the
second loop that builds `page_starts` re-appends every page, so chunk
texts and the chunk count are computed over a corpus holding two copies
of the document's words plus the synthetic header words. -/
theorem c3_corpus_duplicated (pages : List Text) (s o : Nat) (r : ExtractResult)
    (hr : extract_text_from_pdf pages s o = some r) :
    r.text = pageBlocks 0 pages ++ pageBlocks 0 pages ∧
    r.chunks.length =
      ((pysplit (pageBlocks 0 pages ++ pageBlocks 0 pages)).length + (s - o) - 1)
        / (s - o) := by
  obtain ⟨idxs, hstride, hr'⟩ := extract_spec pages s o r hr
  have hcorpus : (pass2Aux (fullTextAux [] pages 0) pages 0).2
      = pageBlocks 0 pages ++ pageBlocks 0 pages := by
    rw [pass2Aux_snd, fullTextAux_eq]
    simp
  subst hr'
  refine ⟨hcorpus, ?_⟩
  show (chunkLoop _ _ s idxs 0).length = _
  rw [chunkLoop_length, ← hcorpus]
  unfold strideIndices at hstride
  split at hstride
  · cases hstride
  · split at hstride
    · simp only [Option.some.injEq] at hstride
      subst hstride
      rename_i h1 h2
      have hd : s - o = 0 := by omega
      rw [hd]
      simp
    · simp only [Option.some.injEq] at hstride
      subst hstride
      rw [List.length_map, List.length_range]

/-- Claim C3: witness at the concrete one-page document "a b c d e f"
with `chunk_size = 3`, `chunk_overlap = 1`. -/
theorem c3_corpus_duplicated_witness :
    sampleExtract.text = pageBlocks 0 sampleDoc ++ pageBlocks 0 sampleDoc ∧
      sampleExtract.chunks.length =
        ((pysplit (pageBlocks 0 sampleDoc ++ pageBlocks 0 sampleDoc)).length + (3 - 1) - 1)
          / (3 - 1) :=
  c3_corpus_duplicated sampleDoc 3 1 sampleExtract (by rfl)

/-- Claim C6, counterexample.  A one-page document whose page has no
extractable words does not yield an empty chunk list: the synthetic
"Page 1: " headers contribute words, so one chunk is produced. -/
theorem c6_zero_words_cex :
    ((extract_text_from_pdf [[]] 1000 200).map fun r => r.chunks.length) ≠ some 0 := by
  decide

/-- Claim C6, amended.  A document with zero pages yields an empty chunk
list; a document with pages yields chunks even when its pages have no
extractable words (the headers contribute words).  A document whose
windowed word count `n` satisfies `0 < n ≤ chunk_size - chunk_overlap`
yields exactly one chunk, whose `start_page` is 0 (note the bound is the
stride, not `chunk_size`: word counts between the stride and
`chunk_size` yield more than one chunk). -/
theorem c6_empty_and_single_chunk (pages : List Text) (s o : Nat) (r : ExtractResult)
    (ho : o < s) (hr : extract_text_from_pdf pages s o = some r) :
    (pages = [] → r.chunks = []) ∧
    (0 < (pysplit r.text).length → (pysplit r.text).length ≤ s - o →
      r.chunks.map ChunkRec.start_page = [0]) := by
  constructor
  · rintro rfl
    rw [extract_nil s o ho] at hr
    simp only [Option.some.injEq] at hr
    rw [← hr]
  · intro hn hnd
    obtain ⟨idxs, hstride, hr'⟩ := extract_spec pages s o r hr
    have htext : r.text = (pass2Aux (fullTextAux [] pages 0) pages 0).2 := by rw [hr']
    rw [htext] at hn hnd
    rw [strideIndices_of_lt _ ho, ceil_eq_one hn hnd] at hstride
    simp only [Option.some.injEq] at hstride
    have hr1 : (List.range 1).map (fun j => j * (s - o)) = [0] := by
      simp [List.range_succ]
    rw [hr1] at hstride
    subst hstride
    rw [hr']
    simp only
    rw [chunkLoop_cons, chunkLoop_nil, List.map_cons, List.map_nil]
    have hcs0 : (joinWords (List.take 0
        (pysplit (pass2Aux (fullTextAux [] pages 0) pages 0).2))).length = 0 := rfl
    rw [hcs0]
    cases pages with
    | nil =>
      exfalso
      have h0 : (pysplit (pass2Aux (fullTextAux [] [] 0) [] 0).2).length = 0 := rfl
      omega
    | cons t rest =>
      have hft : 0 < (fullTextAux [] (t :: rest) 0).length := by
        rw [fullTextAux_eq]
        simpa using pageBlocks_length_pos t rest 0
      have hsts : (pass2Aux (fullTextAux [] (t :: rest) 0) (t :: rest) 0).1
          = (fullTextAux [] (t :: rest) 0).length ::
            (pass2Aux (fullTextAux [] (t :: rest) 0 ++ header 0 ++ t ++ nl2) rest 1).1 := rfl
      rw [hsts]
      unfold findPage
      rw [if_pos ⟨Nat.le.refl, hft⟩]
      rfl

/-- Claim C6, amended: witness at the one-page document "x" with
`chunk_size = 7`, `chunk_overlap = 0` (the whole six-word corpus fits in
one stride): exactly one chunk, with `start_page = 0`. -/
theorem c6_single_chunk_witness :
    tinyExtract.chunks.map ChunkRec.start_page = [0] :=
  (c6_empty_and_single_chunk tinyDoc 7 0 tinyExtract (by decide) (by rfl)).2
    (by decide) (by decide)

/-- Claim C7 (status: confirmed).  Every chunk produced by the
page-tracking chunker has a non-empty text and a `start_page` that is a
valid page index (`0 ≤ start_page < total_pages`), and the uploadpdf
chunk loop never keeps an empty chunk (its `if chunk:` filter drops
them; in fact no window over a non-empty word list is empty). -/
theorem c7_chunk_invariants (pages : List Text) (s o : Nat) (r : ExtractResult)
    (hr : extract_text_from_pdf pages s o = some r) :
    (∀ c ∈ r.chunks, c.text ≠ [] ∧ c.start_page < r.total_pages) ∧
    (∀ (t : Text) (l : List Text), create_chunks t s o = some l → ∀ ch ∈ l, ch ≠ []) := by
  constructor
  · intro c hc
    obtain ⟨idxs, hstride, hr'⟩ := extract_spec pages s o r hr
    subst hr'
    simp only at hc ⊢
    by_cases ho : o < s
    · have hne_idxs : idxs ≠ [] := by
        intro h
        subst h
        rw [chunkLoop_nil] at hc
        simp at hc
      rw [strideIndices_of_lt _ ho] at hstride
      simp only [Option.some.injEq] at hstride
      have hn : 0 < (pysplit (pass2Aux (fullTextAux [] pages 0) pages 0).2).length := by
        by_contra h0
        apply hne_idxs
        rw [← hstride, show (pysplit (pass2Aux (fullTextAux [] pages 0) pages 0).2).length = 0
          by omega, Nat.div_eq_of_lt (by omega)]
        rfl
      constructor
      · have htexts := chunkLoop_map_text
          (pysplit (pass2Aux (fullTextAux [] pages 0) pages 0).2)
          (0 :: (pass2Aux (fullTextAux [] pages 0) pages 0).1) s idxs 0
        have hmem : c.text ∈ (chunkLoop (pysplit (pass2Aux (fullTextAux [] pages 0) pages 0).2)
            (0 :: (pass2Aux (fullTextAux [] pages 0) pages 0).1) s idxs 0).map ChunkRec.text :=
          List.mem_map_of_mem ChunkRec.text hc
        rw [htexts] at hmem
        obtain ⟨i, hi, htext⟩ := List.mem_map.mp hmem
        have hin : i < (pysplit (pass2Aux (fullTextAux [] pages 0) pages 0).2).length := by
          refine strideIndices_mem_lt _ s o i ho idxs ?_ hi
          rw [strideIndices_of_lt _ ho, hstride]
        rw [← htext]
        exact window_ne_nil _ i s hin (by omega)
      · cases pages with
        | nil =>
          exfalso
          have h0 : (pysplit (pass2Aux (fullTextAux [] [] 0) [] 0).2).length = 0 := rfl
          omega
        | cons t rest =>
          refine chunkLoop_start_page_lt _ _ s (t :: rest).length ?_ idxs 0 ?_ c hc
          · simp [pass2Aux_fst_length]
          · simp
    · exfalso
      unfold strideIndices at hstride
      split at hstride
      · cases hstride
      · split at hstride
        · simp only [Option.some.injEq] at hstride
          subst hstride
          rw [chunkLoop_nil] at hc
          simp at hc
        · rename_i h1 h2
          omega
  · intro t l hl ch hch
    simp only [create_chunks] at hl
    cases hs : strideIndices (pysplit t).length s o with
    | none => rw [hs] at hl; cases hl
    | some idxs =>
      rw [hs] at hl
      simp only [Option.map_some', Option.some.injEq] at hl
      subst hl
      obtain ⟨i, hi, hfi⟩ := List.mem_filterMap.mp hch
      by_cases hnil : joinWords (((pysplit t).drop i).take s) = []
      · rw [if_pos hnil] at hfi
        cases hfi
      · rw [if_neg hnil] at hfi
        simp only [Option.some.injEq] at hfi
        rw [← hfi]
        exact hnil

/-- Claim C7: witness at the sample document (chunk 0 of the sample
extraction is non-empty and starts on a valid page). -/
theorem c7_chunk_invariants_witness :
    ({ text := "Page 1: a".data, start_page := 0 } : ChunkRec).text ≠ [] ∧
      ({ text := "Page 1: a".data, start_page := 0 } : ChunkRec).start_page
        < sampleExtract.total_pages :=
  (c7_chunk_invariants sampleDoc 3 1 sampleExtract (by rfl)).1 _ (by decide)

/-- Claim C9 (status: confirmed).  For a single document, the
`start_page` values of the chunks are monotonically non-decreasing in
chunk sequence order: the searched character offset is non-decreasing,
the `page_starts` table is non-decreasing, and a failed interval search
keeps the previous page. -/
theorem c9_start_page_monotone (pages : List Text) (s o : Nat) (r : ExtractResult)
    (hr : extract_text_from_pdf pages s o = some r) :
    List.Chain' (· ≤ ·) (r.chunks.map ChunkRec.start_page) := by
  obtain ⟨idxs, hstride, hr'⟩ := extract_spec pages s o r hr
  subst hr'
  simp only
  exact chunkLoop_chain _ _ s (starts_chain pages _ 0) idxs 0
    (strideIndices_chain _ s o idxs hstride)

/-- Claim C9: witness at the sample document. -/
theorem c9_start_page_monotone_witness :
    List.Chain' (· ≤ ·) (sampleExtract.chunks.map ChunkRec.start_page) :=
  c9_start_page_monotone sampleDoc 3 1 sampleExtract (by rfl)

/-- Claim C10 (status: confirmed).  For consecutive chunks `k` and `k+1`,
when the tail still holds at least `chunk_size` words at window `k+1`
(`(k+1)*(s-o) + s ≤ n`), the last `o` words of chunk `k` equal the first
`o` words of chunk `k+1`. -/
theorem c10_overlap_exact (pages : List Text) (s o k : Nat) (r : ExtractResult)
    (ho : o < s) (hr : extract_text_from_pdf pages s o = some r)
    (hk : (k + 1) * (s - o) + s ≤ (pysplit r.text).length) :
    k + 1 < r.chunks.length ∧
    (pysplit (r.chunks.getD k { text := [], start_page := 0 }).text).length = s ∧
    (pysplit (r.chunks.getD k { text := [], start_page := 0 }).text).drop
        ((pysplit (r.chunks.getD k { text := [], start_page := 0 }).text).length - o)
      = (pysplit (r.chunks.getD (k + 1) { text := [], start_page := 0 }).text).take o := by
  obtain ⟨idxs, hstride, hr'⟩ := extract_spec pages s o r hr
  subst hr'
  simp only at hk ⊢
  rw [strideIndices_of_lt _ ho] at hstride
  simp only [Option.some.injEq] at hstride
  subst hstride
  have hsm : (k + 1) * (s - o) = k * (s - o) + (s - o) := Nat.succ_mul k (s - o)
  have hkd : k * (s - o) + s ≤ (pysplit (pass2Aux (fullTextAux [] pages 0) pages 0).2).length := by
    omega
  have hm : k + 1 < (((pysplit (pass2Aux (fullTextAux [] pages 0) pages 0).2).length
      + (s - o) - 1) / (s - o)) := by
    refine (lt_ceil_iff _ (k + 1) (by omega)).mpr ?_
    omega
  have hchl : ∀ j, j < (((pysplit (pass2Aux (fullTextAux [] pages 0) pages 0).2).length
      + (s - o) - 1) / (s - o)) →
      j < (chunkLoop (pysplit (pass2Aux (fullTextAux [] pages 0) pages 0).2)
        (0 :: (pass2Aux (fullTextAux [] pages 0) pages 0).1) s
        ((List.range (((pysplit (pass2Aux (fullTextAux [] pages 0) pages 0).2).length
          + (s - o) - 1) / (s - o))).map fun j => j * (s - o)) 0).length := by
    intro j hj
    rw [chunkLoop_length, List.length_map, List.length_range]
    exact hj
  have htextj : ∀ j, (hj : j < (((pysplit (pass2Aux (fullTextAux [] pages 0) pages 0).2).length
      + (s - o) - 1) / (s - o))) →
      ((chunkLoop (pysplit (pass2Aux (fullTextAux [] pages 0) pages 0).2)
        (0 :: (pass2Aux (fullTextAux [] pages 0) pages 0).1) s
        ((List.range (((pysplit (pass2Aux (fullTextAux [] pages 0) pages 0).2).length
          + (s - o) - 1) / (s - o))).map fun j => j * (s - o)) 0).getD j
            { text := [], start_page := 0 }).text
        = joinWords (((pysplit (pass2Aux (fullTextAux [] pages 0) pages 0).2).drop
            (j * (s - o))).take s) := by
    intro j hj
    rw [List.getD_eq_getElem _ _ (hchl j hj)]
    rw [← List.getElem_map ChunkRec.text]
    rw [List.getElem_of_eq (chunkLoop_map_text _ _ _ _ _)]
    rw [List.getElem_map, List.getElem_map, List.getElem_range]
    rw [List.length_map]
    exact hchl j hj
  have hww : ∀ j, pysplit (joinWords
      (((pysplit (pass2Aux (fullTextAux [] pages 0) pages 0).2).drop (j * (s - o))).take s))
      = ((pysplit (pass2Aux (fullTextAux [] pages 0) pages 0).2).drop (j * (s - o))).take s := by
    intro j
    refine pysplit_joinWords _ ?_ ?_
    · intro w hw
      exact pysplit_ne_nil _ w (List.mem_of_mem_drop (List.mem_of_mem_take hw))
    · intro w hw
      exact pysplit_no_space _ w (List.mem_of_mem_drop (List.mem_of_mem_take hw))
  have hlenk : (((pysplit (pass2Aux (fullTextAux [] pages 0) pages 0).2).drop
      (k * (s - o))).take s).length = s := by
    rw [List.length_take, List.length_drop]
    omega
  refine ⟨?_, ?_, ?_⟩
  · rw [chunkLoop_length, List.length_map, List.length_range]
    exact hm
  · rw [htextj k (by omega), hww, hlenk]
  · rw [htextj k (by omega), htextj (k + 1) hm, hww, hww, hlenk]
    rw [List.drop_take, List.drop_drop, List.take_take]
    have h1 : s - (s - o) = o := by omega
    have h2 : min o s = o := by omega
    have h3 : k * (s - o) + (s - o) = (k + 1) * (s - o) := by omega
    rw [h1, h2, h3]

/-- Claim C10: witness at the sample document ("a b c d e f",
`chunk_size = 3`, `chunk_overlap = 1`), chunks 0 and 1. -/
theorem c10_overlap_exact_witness :
    0 + 1 < sampleExtract.chunks.length ∧
    (pysplit (sampleExtract.chunks.getD 0 { text := [], start_page := 0 }).text).length = 3 ∧
    (pysplit (sampleExtract.chunks.getD 0 { text := [], start_page := 0 }).text).drop
        ((pysplit (sampleExtract.chunks.getD 0 { text := [], start_page := 0 }).text).length - 1)
      = (pysplit (sampleExtract.chunks.getD (0 + 1) { text := [], start_page := 0 }).text).take 1 :=
  c10_overlap_exact sampleDoc 3 1 0 sampleExtract (by decide) (by rfl) (by decide)

/-- Claim C8 (status: confirmed).  The attribution step groups results by
document id: every document with a retrieved chunk maps to the sorted,
deduplicated list of the `start_page` values of its chunks, the set of
source display names is deduplicated, and a document with no retrieved
chunk (for example one that was in the search filter but absent from the
results) does not appear in `page_info`. -/
theorem c8_attribution_grouping (chunks : List ChunkMeta) :
    ((sources chunks).Nodup ∧
      ∀ nm, nm ∈ sources chunks ↔ ∃ c ∈ chunks, c.custom_name = nm) ∧
    (∀ d e, alookup d (page_info chunks) = some e →
        e.pages.Sorted (· ≤ ·) ∧ e.pages.Nodup ∧
        e.pages = List.insertionSort (· ≤ ·)
          (((chunks.filter fun c => c.document_id = d).map ChunkMeta.start_page).dedup)) ∧
    (∀ d, (∀ c ∈ chunks, c.document_id ≠ d) → alookup d (page_info chunks) = none) := by
  refine ⟨⟨?_, ?_⟩, ?_, ?_⟩
  · exact sourcesAux_nodup chunks [] List.nodup_nil
  · intro nm
    rw [sources, sourcesAux_mem]
    simp
  · intro d e he
    rw [alookup_page_info, build_page_info, build_lookup d chunks [],
      show alookup d ([] : List (Text × PageEntry)) = none from rfl] at he
    obtain ⟨e0, he0, hfe⟩ := Option.map_eq_some'.mp he
    subst hfe
    have hsorted := List.sorted_insertionSort (· ≤ ·) e0.pages
    have hnodup0 : e0.pages.Nodup :=
      entryFold_pages_nodup d chunks none e0 (by intro x hx; cases hx) he0
    have hnodup : (List.insertionSort (· ≤ ·) e0.pages).Nodup :=
      ((List.perm_insertionSort (· ≤ ·) e0.pages).nodup_iff).mpr hnodup0
    refine ⟨hsorted, hnodup, ?_⟩
    refine List.eq_of_perm_of_sorted ?_ hsorted (List.sorted_insertionSort _ _)
    refine ((List.perm_insertionSort _ _).trans ?_).trans
      (List.perm_insertionSort _ _).symm
    rw [List.perm_ext_iff_of_nodup hnodup0 (List.nodup_dedup _)]
    intro q
    rw [entryFold_pages_mem d chunks none e0 q he0]
    simp only [List.mem_dedup, List.mem_map, List.mem_filter]
    constructor
    · rintro (⟨e1, he1, _⟩ | ⟨c, hc, hdq, hq⟩)
      · cases he1
      · exact ⟨c, ⟨hc, by simp [hdq]⟩, hq⟩
    · rintro ⟨c, ⟨hc, hdc⟩, hq⟩
      right
      exact ⟨c, hc, by simpa using hdc, hq⟩
  · intro d hnone
    rw [alookup_page_info, build_page_info, build_lookup d chunks [],
      show alookup d ([] : List (Text × PageEntry)) = none from rfl,
      (entryFold_eq_none_iff d chunks none).mpr ⟨rfl, hnone⟩]
    rfl

/-- Claim C8: witness at the three-result sample, all from document
`docA` on pages 2, 0, 2: its `page_info` entry is sorted, deduplicated
and equal to the sorted distinct pages of the results. -/
theorem c8_attribution_grouping_witness :
    sampleEntryA.pages.Sorted (· ≤ ·) ∧ sampleEntryA.pages.Nodup ∧
      sampleEntryA.pages = List.insertionSort (· ≤ ·)
        (((sampleMatches.filter fun c => c.document_id = docA).map
          ChunkMeta.start_page).dedup) :=
  (c8_attribution_grouping sampleMatches).2.1 docA sampleEntryA (by decide)

end PdfQA
